import Mathlib

/-!
Verification of the gemlite triton kernels
(`src/gemlite/triton_kernels/gemm_splitK_A16fWnO16f_int32packing.py` and
`src/gemlite/triton_kernels/gemv_revsplitK_A16fWnO16f_int32packing.py`)
against the repository specification.

The kernels are shallowly embedded over exact rational arithmetic: every
floating-point operation of the source becomes the corresponding exact
operation on `ℚ`, so "equality within floating-point tolerance of the
accumulation dtype" becomes exact equality.  Tensors become total functions
from indices; masked loads become guarded lookups with the mask's `other`
value; the parallel grid becomes an explicit finite sum over all program
instances.  `utils.py` (which holds `dequantize`, `swizzle_tile`,
`is_divisible` and `init_to_zero`) is not part of the provided sources, so
those four helpers are modelled from the spec, as flagged in their doc
comments; everything else is translated from the two kernel files.
-/

/-- ceiling division, as `triton.cdiv` / `tl.cdiv` used throughout both
kernel files (grid computation and `num_pid_k`). -/
def cdiv (a b : ℕ) : ℕ := (a + b - 1) / b

/-- Modelled from the spec: `is_divisible` from `gemlite/triton_kernels/utils.py`
(the file is absent from `src/`); spec section 4.5 states the check
"K % (BLOCK_SIZE_K * SPLIT_K) == 0". -/
def is_divisible (a b : ℕ) : Bool := a % b == 0

/-- Modelled from the spec (section 4.1): the unpack step of `dequantize` from
`utils.py` (absent from `src/`): "raw = (packed >> q_shift) & unpack_mask"
(exact unsigned integer extraction).  Packed 32-bit words are modelled by
their unsigned value. -/
def unpackCode (packed shift mask : ℕ) : ℕ := Nat.land (Nat.shiftRight packed shift) mask

/-- Modelled from the spec (section 4.1): the affine step of `dequantize` from
`utils.py` (absent from `src/`): mode 0 leaves the raw code, mode 1 subtracts
the zero-point only, mode 2 multiplies by the scale only, and modes 3 and 4
apply "(raw - zero) * scale".  Arithmetic is exact over `ℚ`. -/
def dequantizeValue (Wmode : ℕ) (raw : ℕ) (scale zero : ℚ) : ℚ :=
  if Wmode = 0 then (raw : ℚ)
  else if Wmode = 1 then (raw : ℚ) - zero
  else if Wmode = 2 then (raw : ℚ) * scale
  else ((raw : ℚ) - zero) * scale

/-- Sub-byte packing geometry shared by both kernels: `W_nbits`,
`unpack_mask`, `elements_per_sample` and `group_size` (all `tl.constexpr`
kernel arguments). -/
structure QuantGeom where
  Wn : ℕ
  mask : ℕ
  e : ℕ
  g : ℕ

/-- The caller-owned tensors of one launch.  `A` is the `M×K` activation
matrix, `Bq` the packed `(K/e)×N` weight matrix (unsigned word values),
`scalesF`/`zerosF` the scales/zeros buffers viewed flat (the kernels address
them both through the `(stride_meta_g, stride_meta_n)` strides in the main
loop and directly by column offset in the channel-scale epilogue), and
`scalesA` the per-row activation scales. -/
structure KernelData where
  A : ℕ → ℕ → ℚ
  Bq : ℕ → ℕ → ℕ
  scalesF : ℕ → ℚ
  zerosF : ℕ → ℚ
  scalesA : ℕ → ℚ
  sG : ℕ
  sN : ℕ

/-- The `tl.constexpr` mode selectors `W_group_mode`, `channel_scale_mode`
and `zero_is_scalar`. -/
structure ModeSel where
  Wmode : ℕ
  csm : ℕ
  zScalar : Bool

/-- Flat offset of the `(grp, col)` element of the scales/zeros buffers:
`k_m * stride_meta_g + offs_bn * stride_meta_n` (both kernel files). -/
def metaIndex (d : KernelData) (grp col : ℕ) : ℕ := grp * d.sG + col * d.sN

/-- The reference dequantized weight element at row `k`, column `col`:
unpack the code packed at word `k / e`, shift `(k % e) * W_nbits`, then apply
the group-`(k / g)` affine transform (spec sections 4.1 and 8; the scalar
zero-point is the single element of the zeros buffer). -/
def refDeq (d : KernelData) (q : QuantGeom) (ms : ModeSel) (k col : ℕ) : ℚ :=
  dequantizeValue ms.Wmode
    (unpackCode (d.Bq (k / q.e) col) ((k % q.e) * q.Wn) q.mask)
    (d.scalesF (metaIndex d (k / q.g) col))
    (if ms.zScalar then d.zerosF 0 else d.zerosF (metaIndex d (k / q.g) col))

/-- The channel-scale epilogue common to both kernels (lines 305-317 of the
GEMM file, lines 209-221 of the GEMV file): mode 1 multiplies by the masked
per-column weight scale (`other=1`), mode 2 by the masked per-row activation
scale times a vector of ones, mode 3 by both, any other mode leaves the
accumulator unchanged. -/
def channelScaleFactor (d : KernelData) (ms : ModeSel) (M N row col : ℕ) : ℚ :=
  if ms.csm = 1 then (if col < N then d.scalesF col else 1)
  else if ms.csm = 2 then (if row < M then d.scalesA row else 1) * 1
  else if ms.csm = 3 then
    (if row < M then d.scalesA row else 1) * (if col < N then d.scalesF col else 1)
  else 1

/-- The reference result `C = channel_scale ∘ (A · dequantize(B))` at `(i, j)`
(spec section 8; the per-channel correction of section 4.3 step 4 applied to
the exact matmul). -/
def refMatmul (d : KernelData) (q : QuantGeom) (ms : ModeSel) (M N K i j : ℕ) : ℚ :=
  channelScaleFactor d ms M N i j * ∑ k ∈ Finset.range K, d.A i k * refDeq d q ms k j

/-! ### The split-K GEMM kernel (`gemm_splitK_A16fWnO16f_int32packing_kernel`) -/

/-- Group index used for the metadata loads of iteration `iter` of `pid_k`:
`k_m = ((k * SPLIT_K + pid_k) * stride_mul).to(tl.int32)` with
`stride_mul = BLOCK_SIZE_K / group_size` (line 271); the float product is
exact for the power-of-two sizes of the config space, so truncation is
natural-number division. -/
def gemmKm (q : QuantGeom) (BK SK pk iter : ℕ) : ℕ := (iter * SK + pk) * BK / q.g

/-- Packed row of `B` read at lane `kk` of iteration `iter`:
`offs_bk // elements_per_sample` advanced `iter` times by
`BLOCK_SIZE_K_P = (BLOCK_SIZE_K // elements_per_sample) * SPLIT_K`
(lines 238, 251, 301). -/
def gemmBRow (q : QuantGeom) (BK SK pk kk iter : ℕ) : ℕ :=
  (pk * BK + kk) / q.e + iter * (BK / q.e * SK)

/-- Bit shift for lane `kk`: `q_shift = (offs_bk % elements_per_sample) * W_nbits`
(line 239), computed once before the loop and reused by every iteration. -/
def gemmQShift (q : QuantGeom) (BK pk kk : ℕ) : ℕ := (pk * BK + kk) % q.e * q.Wn

/-- Column of `A` read at lane `kk` of iteration `iter`: `offs_ak` advanced
`iter` times by `BLOCK_SIZE_K_U = BLOCK_SIZE_K * SPLIT_K` (lines 223, 250, 300). -/
def gemmACol (BK SK pk kk iter : ℕ) : ℕ := pk * BK + kk + iter * (BK * SK)

/-- Dequantized weight element produced inside the GEMM main loop at lane
`kk` of iteration `iter`, column `offs_bn = col` (lines 264-290): the packed
word is unpacked with the pre-computed shift and dequantized with the
group-`k_m` scale/zero (the zero is the once-loaded scalar when
`zero_is_scalar`). -/
def gemmDeqB (d : KernelData) (q : QuantGeom) (ms : ModeSel) (BK SK pk kk iter col : ℕ) : ℚ :=
  dequantizeValue ms.Wmode
    (unpackCode (d.Bq (gemmBRow q BK SK pk kk iter) col) (gemmQShift q BK pk kk) q.mask)
    (d.scalesF (metaIndex d (gemmKm q BK SK pk iter) col))
    (if ms.zScalar then d.zerosF 0 else d.zerosF (metaIndex d (gemmKm q BK SK pk iter) col))

/-- Masked activation load (lines 242-243, 262/267/287/294): rows are masked
by `offs_am < M` with `other=0.`; columns carry no mask. -/
def gemmAval (d : KernelData) (M row col : ℕ) : ℚ := if row < M then d.A row col else 0

/-- The accumulator of one GEMM program instance after its
`num_pid_k = cdiv(K, BLOCK_SIZE_K * SPLIT_K)` loop iterations (lines 257-301):
entry `(iLoc, jLoc)` of the `BLOCK_SIZE_M × BLOCK_SIZE_N` tile of instance
`(pid_m, pid_n, pid_k)`. -/
def gemmAcc (d : KernelData) (q : QuantGeom) (ms : ModeSel)
    (M K BM BN BK SK pm pn pk iLoc jLoc : ℕ) : ℚ :=
  ∑ iter ∈ Finset.range (cdiv K (BK * SK)), ∑ kk ∈ Finset.range BK,
    gemmAval d M (pm * BM + iLoc) (gemmACol BK SK pk kk iter) *
      gemmDeqB d q ms BK SK pk kk iter (pn * BN + jLoc)

/-- The accumulator after the channel-scale epilogue (lines 303-319). -/
def gemmScaledAcc (d : KernelData) (q : QuantGeom) (ms : ModeSel)
    (M N K BM BN BK SK pm pn pk iLoc jLoc : ℕ) : ℚ :=
  channelScaleFactor d ms M N (pm * BM + iLoc) (pn * BN + jLoc) *
    gemmAcc d q ms M K BM BN BK SK pm pn pk iLoc jLoc

/-- Amount instance `pid_k = pk` adds to output cell `(i, j)` across the whole
first grid axis: the store / atomic-add targets `offs_cm = pid_m*BLOCK_SIZE_M +
arange(BLOCK_SIZE_M)`, `offs_cn = pid_n*BLOCK_SIZE_N + arange(BLOCK_SIZE_N)`
under the mask `(offs_cm < M) & (offs_cn < N)` (lines 322-331).  Modelled from
the spec for the first grid axis: `swizzle_tile` (from the absent `utils.py`)
"must cover every tile exactly once" (section 4.2), so the
`cdiv(M,BM) * cdiv(N,BN)` linear program ids are enumerated directly as tile
coordinates `(pid_m, pid_n)`. -/
def gemmContribTo (d : KernelData) (q : QuantGeom) (ms : ModeSel)
    (M N K BM BN BK SK pk i j : ℕ) : ℚ :=
  ∑ pm ∈ Finset.range (cdiv M BM), ∑ pn ∈ Finset.range (cdiv N BN),
    ∑ iLoc ∈ Finset.range BM, ∑ jLoc ∈ Finset.range BN,
      if pm * BM + iLoc = i ∧ pn * BN + jLoc = j ∧ pm * BM + iLoc < M ∧ pn * BN + jLoc < N
      then gemmScaledAcc d q ms M N K BM BN BK SK pm pn pk iLoc jLoc else 0

/-- Whether any instance of the first grid axis stores to cell `(i, j)`
(the masked store of line 331 touches `(i, j)` iff some in-grid tile covers
it and the mask holds). -/
def gemmWritten (M N BM BN i j : ℕ) : Prop :=
  ∃ pm < cdiv M BM, ∃ pn < cdiv N BN, ∃ iLoc < BM, ∃ jLoc < BN,
    pm * BM + iLoc = i ∧ pn * BN + jLoc = j ∧ i < M ∧ j < N

instance (M N BM BN i j : ℕ) : Decidable (gemmWritten M N BM BN i j) := by
  unfold gemmWritten; infer_instance

/-- The value of output cell `(i, j)` (for `i < M`, `j < N`) after the whole
GEMM launch, starting from output buffer contents `C0`: `SPLIT_K > 1` takes
the atomic-add path (line 329), every `pid_k` accumulating onto `C0`;
`SPLIT_K <= 1` takes the direct masked-store path (line 331), the unique
covering instance overwriting the cell.  Floating-point accumulation order
is immaterial over `ℚ`. -/
def gemmCAfter (d : KernelData) (q : QuantGeom) (ms : ModeSel)
    (M N K BM BN BK SK : ℕ) (C0 : ℕ → ℕ → ℚ) (i j : ℕ) : ℚ :=
  if 1 < SK then
    C0 i j + ∑ pk ∈ Finset.range SK, gemmContribTo d q ms M N K BM BN BK SK pk i j
  else if gemmWritten M N BM BN i j then gemmContribTo d q ms M N K BM BN BK SK 0 i j
  else C0 i j

/-- The kind of final write of the GEMM kernel, and the grid of the launch
(`gemm_splitK_A16fWnO16f_int32packing_forward`, line 730). -/
inductive FinalWrite where
  | store : FinalWrite
  | atomicAdd (sem : ℕ) : FinalWrite
deriving DecidableEq

/-- From lines 328-331 of the GEMM file: `SPLIT_K > 1` performs
`tl.atomic_add(..., sem=atomic_mode)`, otherwise `tl.store`.  The
`atomic_mode` string is carried as a numeric code. -/
def gemmFinalWrite (SK atomicMode : ℕ) : FinalWrite :=
  if 1 < SK then FinalWrite.atomicAdd atomicMode else FinalWrite.store

/-- From line 730 of the GEMM file: the launch grid is
`(cdiv(M, BLOCK_SIZE_M) * cdiv(N, BLOCK_SIZE_N), SPLIT_K)`. -/
def gemmGrid (M N BM BN SK : ℕ) : ℕ × ℕ := (cdiv M BM * cdiv N BN, SK)

/-! ### The reversed split-K GEMV kernel (`gemv_revsplitK_A16fWnO16f_int32packing_kernel`) -/

/-- From line 268 of the GEMV file: the launch grid is
`(cdiv(M, BLOCK_SIZE_M) * cdiv(N, BLOCK_SIZE_N), cdiv(K, BLOCK_SIZE_K * 2))`. -/
def gemvGrid (M N K BM BN BK : ℕ) : ℕ × ℕ :=
  (cdiv M BM * cdiv N BN, cdiv K (BK * 2))

/-- Base K-offset of instance `inst` of the second grid axis:
`pid_k = tl.program_id(axis=1) * 2` scaled by `BLOCK_SIZE_K` (lines 152, 159). -/
def gemvBase (BK inst : ℕ) : ℕ := 2 * inst * BK

/-- Metadata group index loaded once per instance:
`k_m = (pid_k * (BLOCK_SIZE_K / group_size)).to(tl.int32)` (line 169); the
float product is exact for the power-of-two sizes of the config space, so
truncation is natural-number division. -/
def gemvKm (q : QuantGeom) (BK inst : ℕ) : ℕ := 2 * inst * BK / q.g

/-- One summand of the per-instance reduction (lines 184-205).  `second = false`
is the first chunk; `second = true` is the second chunk after the pointer
advance `a_ptrs += BLOCK_SIZE_K * stride_ak`,
`b_ptrs += (BLOCK_SIZE_K // elements_per_sample) * stride_bk`, with `q_shift`
and the group-`k_m` scales/zeros reused unchanged from the first chunk.  Both
the `a` and `b` loads are unmasked; when `zero_is_scalar` the zero-point is
the scalar the wrapper passed (`zeros.item()`, i.e. the single element of the
zeros buffer). -/
def gemvChunkTerm (d : KernelData) (q : QuantGeom) (ms : ModeSel)
    (BK : ℕ) (second : Bool) (pm inst col kk : ℕ) : ℚ :=
  d.A pm (gemvBase BK inst + kk + if second then BK else 0) *
    dequantizeValue ms.Wmode
      (unpackCode
        (d.Bq ((gemvBase BK inst + kk) / q.e + if second then BK / q.e else 0) col)
        ((gemvBase BK inst + kk) % q.e * q.Wn) q.mask)
      (d.scalesF (metaIndex d (gemvKm q BK inst) col))
      (if ms.zScalar then d.zerosF 0 else d.zerosF (metaIndex d (gemvKm q BK inst) col))

/-- The `1 × BLOCK_SIZE_N` accumulator of one GEMV instance: the
`tl.sum(a * b, axis=0)` of the first chunk plus that of the second chunk
(lines 192, 205), at column `offs_bn = pn * BLOCK_SIZE_N + jLoc`. -/
def gemvAcc (d : KernelData) (q : QuantGeom) (ms : ModeSel)
    (BN BK pm pn inst jLoc : ℕ) : ℚ :=
  (∑ kk ∈ Finset.range BK, gemvChunkTerm d q ms BK false pm inst (pn * BN + jLoc) kk) +
    ∑ kk ∈ Finset.range BK, gemvChunkTerm d q ms BK true pm inst (pn * BN + jLoc) kk

/-- The GEMV accumulator after the channel-scale epilogue (lines 207-221);
the instance's output row is `pid_m` itself since `BLOCK_SIZE_M = 1` (forced
by the GEMV config pruner, line 19). -/
def gemvScaledAcc (d : KernelData) (q : QuantGeom) (ms : ModeSel)
    (M N BN BK pm pn inst jLoc : ℕ) : ℚ :=
  channelScaleFactor d ms M N pm (pn * BN + jLoc) *
    gemvAcc d q ms BN BK pm pn inst jLoc

/-- The value of output cell `(i, j)` (for `j < N`; writes to columns `>= N`
fall outside the `M×N` buffer) after the whole GEMV launch starting from
buffer contents `C0`: every instance of the
`(cdiv(M,1) * cdiv(N,BLOCK_SIZE_N), cdiv(K, BLOCK_SIZE_K*2))` grid performs an
unmasked `tl.atomic_add` at `(pid_m, offs_cn)` (lines 225-229).  Modelled from
the spec for the first grid axis: `swizzle_tile` (absent `utils.py`) covers
every tile exactly once (section 4.2), so linear ids are enumerated directly
as tile coordinates. -/
def gemvCAfter (d : KernelData) (q : QuantGeom) (ms : ModeSel)
    (M N K BN BK : ℕ) (C0 : ℕ → ℕ → ℚ) (i j : ℕ) : ℚ :=
  C0 i j + ∑ pm ∈ Finset.range (cdiv M 1), ∑ pn ∈ Finset.range (cdiv N BN),
    ∑ inst ∈ Finset.range (cdiv K (BK * 2)), ∑ jLoc ∈ Finset.range BN,
      if pm = i ∧ pn * BN + jLoc = j
      then gemvScaledAcc d q ms M N BN BK pm pn inst jLoc else 0

/-! ### Configuration space pruning (`kernel_config_pruner` in both files) -/

/-- A candidate / yielded `triton.Config` of the GEMM file: the tuning kwargs
(lines 92-101), `num_stages`, `num_warps`, and whether the
`init_to_zero("c_ptr")` pre-hook is attached.  `meta_evict_policy` and
`atomic_mode` are string-valued in the source (`''`/`'evict_last'`,
`'relaxed'`/`'release'`) and are carried as numeric codes. -/
structure CandCfg where
  bm : ℕ
  bn : ℕ
  bk : ℕ
  gm : ℕ
  sk : ℕ
  aLoad : ℕ
  evict : ℕ
  atomic : ℕ
  stages : ℕ
  warps : ℕ
  preHook : Bool
deriving DecidableEq

/-- The de-duplication key of the GEMM pruner (lines 82-85): block sizes,
`GROUP_SIZE_M`, `SPLIT_K`, `A_load_order`, `meta_evict_policy`,
`atomic_mode`, `num_stages`, `num_warps`. -/
def gemmKeyOf (c : CandCfg) : ℕ × ℕ × ℕ × ℕ × ℕ × ℕ × ℕ × ℕ × ℕ × ℕ :=
  (c.bm, c.bn, c.bk, c.gm, c.sk, c.aLoad, c.evict, c.atomic, c.stages, c.warps)

/-- The `block_size_m` clamps of lines 49-52 (sequentially: `16` when
`m <= 16`, clamp into `[16, 32]` when `m >= 32`, into `[32, 64]` when
`m >= 64`). -/
def gemmBmAdjust (m bm : ℕ) : ℕ :=
  let bm1 := if m ≤ 16 then 16 else bm
  let bm2 := if 32 ≤ m then min (max bm1 16) 32 else bm1
  if 64 ≤ m then min (max bm2 32) 64 else bm2

/-- The `split_k` clamps of lines 54-57 (sequentially: `min(split_k, 8)` when
`m >= 32`, then `max(split_k, 2)` when `m <= 16`). -/
def gemmSkAdjust (m sk : ℕ) : ℕ :=
  let sk1 := if 32 ≤ m then min sk 8 else sk
  if m ≤ 16 then max sk1 2 else sk1

/-- One iteration of the GEMM pruner's enumeration loop (lines 42-106): the
`m`-dependent clamps of `block_size_m` and `split_k`, the tile-area filter
(on the unclamped `block_size_k`), the `block_size_k = min(block_size_k, g)`
clamp, the `K % (BLOCK_SIZE_K * SPLIT_K)` divisibility filter and the
`num_stages == 1` skip for unpacked weights; `none` means `continue`.  The
yielded config carries `init_to_zero("c_ptr")` iff `split_k > 1` (line 105). -/
def gemmStep (m k g e : ℕ) (c : CandCfg) :
    Option ((ℕ × ℕ × ℕ × ℕ × ℕ × ℕ × ℕ × ℕ × ℕ × ℕ) × CandCfg) :=
  if 4096 * 8 < c.bk * c.bn then none
  else if is_divisible k (min c.bk g * gemmSkAdjust m c.sk) = false then none
  else if e = 1 ∧ c.stages = 1 then none
  else
    some ((gemmBmAdjust m c.bm, c.bn, min c.bk g, c.gm, gemmSkAdjust m c.sk,
            c.aLoad, c.evict, c.atomic, c.stages, c.warps),
      { bm := gemmBmAdjust m c.bm, bn := c.bn, bk := min c.bk g, gm := c.gm,
        sk := gemmSkAdjust m c.sk, aLoad := c.aLoad, evict := c.evict,
        atomic := c.atomic, stages := c.stages, warps := c.warps,
        preHook := decide (1 < gemmSkAdjust m c.sk) })

/-- The GEMM pruner's enumeration path (the `for config in configs` loop with
its `used` de-duplication set, lines 41-106), yielding in order. -/
def gemmPruneEnum (m k g e : ℕ) :
    List CandCfg → List (ℕ × ℕ × ℕ × ℕ × ℕ × ℕ × ℕ × ℕ × ℕ × ℕ) → List CandCfg
  | [], _ => []
  | c :: rest, used =>
    match gemmStep m k g e c with
    | none => gemmPruneEnum m k g e rest used
    | some ku =>
      if ku.1 ∈ used then gemmPruneEnum m k g e rest used
      else ku.2 :: gemmPruneEnum m k g e rest (ku.1 :: used)

/-- Keys of the configuration dicts stored in the process-wide
`GEMLITE_TRITON_CONFIG_CACHE` (lines 28-31 read them by these names). -/
inductive CKey where
  | BLOCK_SIZE_M | BLOCK_SIZE_N | BLOCK_SIZE_K | GROUP_SIZE_M | SPLIT_K
  | A_load_order | meta_evict_policy | atomic_mode
  | num_stages | num_warps | num_ctas
deriving DecidableEq

/-- `dict.pop(key)`: remove the first binding of `key`, returning its value
and the remaining dict; `none` models Python's `KeyError`. -/
def dictPop (key : CKey) : List (CKey × ℕ) → Option (ℕ × List (CKey × ℕ))
  | [] => none
  | (k, v) :: rest =>
    if k = key then some (v, rest)
    else (dictPop key rest).map fun p => (p.1, (k, v) :: p.2)

/-- `dict[key]` lookup. -/
def dictGet (key : CKey) : List (CKey × ℕ) → Option ℕ
  | [] => none
  | (k, v) :: rest => if k = key then some v else dictGet key rest

/-- Reconstruction of a cached GEMM configuration (lines 28-37):
`num_stages`, `num_warps` and `num_ctas` are popped out of a deep copy of the
stored dict, the remainder supplies the tuning kwargs, and the pre-hook is
re-attached iff the stored `SPLIT_K` exceeds 1. -/
def reconstructCached (dict : List (CKey × ℕ)) : Option CandCfg := do
  let (s, d1) ← dictPop CKey.num_stages dict
  let (w, d2) ← dictPop CKey.num_warps d1
  let (_, d3) ← dictPop CKey.num_ctas d2
  let bm ← dictGet CKey.BLOCK_SIZE_M d3
  let bn ← dictGet CKey.BLOCK_SIZE_N d3
  let bk ← dictGet CKey.BLOCK_SIZE_K d3
  let gm ← dictGet CKey.GROUP_SIZE_M d3
  let sk ← dictGet CKey.SPLIT_K d3
  let al ← dictGet CKey.A_load_order d3
  let ev ← dictGet CKey.meta_evict_policy d3
  let am ← dictGet CKey.atomic_mode d3
  pure { bm := bm, bn := bn, bk := bk, gm := gm, sk := sk, aLoad := al,
         evict := ev, atomic := am, stages := s, warps := w,
         preHook := decide (1 < sk) }

/-- Structural evaluation of `floor(log2 n)` with explicit fuel (`fuel >= n`
suffices), used to model Python's `int(math.ceil(math.log2(M)))`. -/
def log2floorAux : ℕ → ℕ → ℕ
  | 0, _ => 0
  | fuel + 1, n => if n ≤ 1 then 0 else log2floorAux fuel (n / 2) + 1

/-- `m = 2 ** int(math.ceil(math.log2(nargs['M'])))` (line 18): the smallest
power of two that is at least `M` (for `M >= 1`; `math.log2(0)` would raise
in Python). -/
def pow2ceil (M : ℕ) : ℕ :=
  if M ≤ 1 then 1 else 2 ^ (log2floorAux M (M - 1) + 1)

/-- The process-wide configuration cache restricted to the `GEMM_SPLITK`
matmul type, as a lookup from the signature
`(m, N, K, group_size, elements_per_sample)` (line 26) to the stored dict. -/
def ConfigCache : Type := ℕ × ℕ × ℕ × ℕ × ℕ → Option (List (CKey × ℕ))

/-- The GEMM `kernel_config_pruner` (lines 14-106): round `M` up to a power
of two, consult the configuration cache at
`(m, N, K, group_size, elements_per_sample)` and, on a hit, yield exactly the
reconstructed cached configuration and return; otherwise enumerate and filter
the candidate list.  A malformed cache dict (Python `KeyError`) yields
nothing. -/
def gemm_kernel_config_pruner (M n k g e : ℕ) (cache : ConfigCache)
    (configs : List CandCfg) : List CandCfg :=
  let m := pow2ceil M
  match cache (m, n, k, g, e) with
  | some dict =>
    match reconstructCached dict with
    | some cfg => [cfg]
    | none => []
  | none => gemmPruneEnum m k g e configs []

/-- A candidate / yielded `triton.Config` of the GEMV file (lines 51-63):
no `GROUP_SIZE_M`, `SPLIT_K` or `A_load_order` kwargs; the pre-hook of the
input candidate is passed through unchanged. -/
structure GemvCand where
  bm : ℕ
  bn : ℕ
  bk : ℕ
  evict : ℕ
  atomic : ℕ
  stages : ℕ
  warps : ℕ
  preHook : Bool
deriving DecidableEq

/-- The de-duplication key of the GEMV pruner (lines 42-45). -/
def gemvKeyOf (c : GemvCand) : ℕ × ℕ × ℕ × ℕ × ℕ × ℕ × ℕ :=
  (c.bm, c.bn, c.bk, c.evict, c.atomic, c.stages, c.warps)

/-- One iteration of the GEMV pruner's loop (lines 18-63): `BLOCK_SIZE_M`
forced to 1, `BLOCK_SIZE_N`/`BLOCK_SIZE_K` clamped to the problem shape,
`SPLIT_K` fixed at 2, the further `BLOCK_SIZE_K` clamps (`<= 32` when `m > 1`,
`<= group_size`), the `BLOCK_SIZE_K * SPLIT_K <= group_size` filter and the
`K % (BLOCK_SIZE_K * SPLIT_K)` divisibility filter; `none` means `continue`.
`gemvBkAdjust` is the sequence of `BLOCK_SIZE_K` clamps of lines 21, 28
and 32. -/
def gemvBkAdjust (m k g bk : ℕ) : ℕ :=
  min (if 1 < m then min (min k bk) 32 else min k bk) g

/-- The guarded yield of one GEMV pruner iteration (see `gemvBkAdjust`). -/
def gemvStep (m n k g : ℕ) (c : GemvCand) :
    Option ((ℕ × ℕ × ℕ × ℕ × ℕ × ℕ × ℕ) × GemvCand) :=
  if gemvBkAdjust m k g c.bk * 2 ≤ g then
    if is_divisible k (gemvBkAdjust m k g c.bk * 2) then
      some ((1, min n c.bn, gemvBkAdjust m k g c.bk, c.evict, c.atomic, c.stages, c.warps),
        { bm := 1, bn := min n c.bn, bk := gemvBkAdjust m k g c.bk, evict := c.evict,
          atomic := c.atomic, stages := c.stages, warps := c.warps, preHook := c.preHook })
    else none
  else none

/-- The GEMV pruner's loop with its `used` de-duplication set. -/
def gemvPruneEnum (m n k g : ℕ) :
    List GemvCand → List (ℕ × ℕ × ℕ × ℕ × ℕ × ℕ × ℕ) → List GemvCand
  | [], _ => []
  | c :: rest, used =>
    match gemvStep m n k g c with
    | none => gemvPruneEnum m n k g rest used
    | some ku =>
      if ku.1 ∈ used then gemvPruneEnum m n k g rest used
      else ku.2 :: gemvPruneEnum m n k g rest (ku.1 :: used)

/-- The GEMV `kernel_config_pruner` (lines 11-63): no configuration-cache
fast path exists in this file. -/
def gemv_kernel_config_pruner (m n k g : ℕ) (configs : List GemvCand) : List GemvCand :=
  gemvPruneEnum m n k g configs []

/-! ### Entry points (`..._forward` wrappers) -/

/-- Torch dtypes a zeros tensor may carry. -/
inductive DType where
  | float16 | bfloat16 | float32 | int32 | int8 | uint8 | boolT
deriving DecidableEq

/-- Whether `Tensor.item()` on a one-element tensor of this dtype produces a
Python `int` (or `bool`, a subclass of `int`): true exactly for the
integral/bool dtypes, false for the floating ones. -/
def DType.itemIsInt : DType → Bool
  | DType.int32 => true
  | DType.int8 => true
  | DType.uint8 => true
  | DType.boolT => true
  | _ => false

/-- From line 768 of the GEMM file: `zero_is_scalar = zeros.numel() == 1`. -/
def gemm_zero_is_scalar (zerosNumel : ℕ) : Bool := zerosNumel == 1

/-- From lines 266 and 306 of the GEMV file:
`zeros = zeros.item() if (zeros.numel()==1) else zeros` followed by
`zero_is_scalar = isinstance(zeros, int)` — the flag is set only when the
tensor has one element AND `.item()` yields a Python `int`, i.e. the dtype is
integral. -/
def gemv_zero_is_scalar (zerosNumel : ℕ) (zerosDtype : DType) : Bool :=
  (zerosNumel == 1) && zerosDtype.itemIsInt

/-- Shape/metadata arguments visible to the entry points before launch. -/
structure LaunchArgs where
  xRows : ℕ
  xCols : ℕ
  wRows : ℕ
  wCols : ℕ
  zerosNumel : ℕ
  zerosDtype : DType
  hasScales : Bool
  hasZeros : Bool
  hasScalesX : Bool
  Wmode : ℕ
  csm : ℕ
  groupSize : ℕ
  eps : ℕ

/-- The dispatch-layer result computed before any kernel launch. -/
structure LaunchPlan where
  M : ℕ
  N : ℕ
  K : ℕ
  outRows : ℕ
  outCols : ℕ
  zeroIsScalar : Bool

/-- Pre-launch computation of `gemm_splitK_A16fWnO16f_int32packing_forward`
(lines 718-770): `M, K, N = x.shape[0], x.shape[1], W_q.shape[1]`, the output
allocated `M×N`, `zero_is_scalar = zeros.numel() == 1`.  No validation is
performed — the shape assertion of line 727 is commented out in the source —
so no input makes this raise. -/
def gemm_splitK_forward_plan (a : LaunchArgs) : Except String LaunchPlan :=
  Except.ok { M := a.xRows, N := a.wCols, K := a.xCols,
              outRows := a.xRows, outCols := a.wCols,
              zeroIsScalar := gemm_zero_is_scalar a.zerosNumel }

/-- Pre-launch computation of `gemv_revsplitK_A16fWnO16f_int32packing_forward`
(lines 255-307): identical shape derivation; `zero_is_scalar` via the
`.item()` / `isinstance(..., int)` detection.  The shape assertion of
line 264 is likewise commented out, so no input makes this raise. -/
def gemv_revsplitK_forward_plan (a : LaunchArgs) : Except String LaunchPlan :=
  Except.ok { M := a.xRows, N := a.wCols, K := a.xCols,
              outRows := a.xRows, outCols := a.wCols,
              zeroIsScalar := gemv_zero_is_scalar a.zerosNumel a.zerosDtype }

/-- The validation the claim (spec section 7) attributes to the entry points,
stated from the claim's words for comparison: check
`K == W_q.shape[0] * elements_per_sample`, and that the metadata tensors
demanded by `W_group_mode` were supplied, raising a descriptive error
otherwise. -/
def claimedValidate (a : LaunchArgs) : Except String Unit :=
  if a.xCols ≠ a.wRows * a.eps then Except.error "Invalid Input Shapes"
  else if 2 ≤ a.Wmode ∧ a.hasScales = false then Except.error "missing scales"
  else if (a.Wmode = 1 ∨ 3 ≤ a.Wmode) ∧ a.hasZeros = false then Except.error "missing zeros"
  else Except.ok ()

/-! ### Memory-access footprints (for the boundary-masking claim) -/

/-- Column offsets `p * B + arange(B)` of one tile along an axis: the
unmasked offset vectors `offs_bn` (GEMM line 238, GEMV lines 160, 165) and
`offs_cn` (GEMV line 226). -/
def tileCols (B p : ℕ) : Finset ℕ := (Finset.range B).image fun t => p * B + t

/-- Rows of `A` actually read by the masked activation load of the GEMM
kernel (mask `offs_am < M`, `other=0.`, lines 242-243): only in-bounds rows
are dereferenced. -/
def gemmALoadRows (M BM pm : ℕ) : Finset ℕ :=
  ((Finset.range BM).image fun t => pm * BM + t).filter fun r => r < M

/-- Cells of `C` written by the GEMM final store / atomic add (mask
`(offs_cm < M) & (offs_cn < N)`, lines 329-331). -/
def gemmStoreCells (M N BM BN pm pn : ℕ) : Finset (ℕ × ℕ) :=
  ((Finset.range BM ×ˢ Finset.range BN).image
    fun p => (pm * BM + p.1, pn * BN + p.2)).filter fun c => c.1 < M ∧ c.2 < N

/-- Columns of `A` read at iteration `iter` of the GEMM main loop (no column
mask; lines 223, 242, 300). -/
def gemmALoadColsK (BK SK pk iter : ℕ) : Finset ℕ :=
  (Finset.range BK).image fun kk => gemmACol BK SK pk kk iter

/-! ### Arithmetic helper lemmas -/

theorem sum_range_add_shift {β : Type} [AddCommMonoid β] (f : ℕ → β) (m n : ℕ) :
    ∑ x ∈ Finset.range (m + n), f x =
      (∑ x ∈ Finset.range m, f x) + ∑ x ∈ Finset.range n, f (m + x) := by
  induction n with
  | zero => simp
  | succ n ih =>
    rw [Nat.add_succ, Finset.sum_range_succ, ih, Finset.sum_range_succ, add_assoc]

theorem sum_range_mul {β : Type} [AddCommMonoid β] (f : ℕ → β) (a b : ℕ) :
    ∑ x ∈ Finset.range (a * b), f x =
      ∑ i ∈ Finset.range a, ∑ j ∈ Finset.range b, f (i * b + j) := by
  induction a with
  | zero => simp
  | succ a ih =>
    rw [Nat.succ_mul, sum_range_add_shift, ih, Finset.sum_range_succ]

theorem cdiv_of_dvd (b m : ℕ) (hb : 0 < b) : cdiv (b * m) b = m := by
  unfold cdiv
  have h1 : b * m + b - 1 = b - 1 + b * m := by omega
  rw [h1, Nat.add_mul_div_left _ _ hb, Nat.div_eq_of_lt (by omega)]
  omega

theorem div_block_group (B g qq t : ℕ) (ht : t < B) (hdvd : B ∣ g) :
    (qq * B + t) / g = qq * B / g := by
  obtain ⟨s, rfl⟩ := hdvd
  rcases Nat.eq_zero_or_pos s with hs | hs
  · subst hs; simp
  have hB : 0 < B := by omega
  rw [← Nat.div_div_eq_div_mul, ← Nat.div_div_eq_div_mul]
  congr 1
  have h1 : (qq * B + t) / B = qq := by
    have h0 : qq * B + t = t + B * qq := by ring
    rw [h0, Nat.add_mul_div_left _ _ hB, Nat.div_eq_of_lt ht]; omega
  have h2 : qq * B / B = qq := Nat.mul_div_cancel qq hB
  rw [h1, h2]

theorem add_mul_div_of_dvd (e B qq kk : ℕ) (hd : e ∣ B) (he : 0 < e) :
    (qq * B + kk) / e = qq * (B / e) + kk / e := by
  obtain ⟨t, rfl⟩ := hd
  rw [Nat.mul_div_cancel_left _ he]
  have h1 : qq * (e * t) + kk = kk + e * (qq * t) := by ring
  rw [h1, Nat.add_mul_div_left _ _ he]
  omega

theorem add_mul_mod_of_dvd (e B qq kk : ℕ) (hd : e ∣ B) :
    (qq * B + kk) % e = kk % e := by
  obtain ⟨t, rfl⟩ := hd
  have h1 : qq * (e * t) + kk = e * (qq * t) + kk := by ring
  rw [h1, Nat.mul_add_mod]

theorem add_div_of_dvd (e a b : ℕ) (hd : e ∣ a) (he : 0 < e) :
    (a + b) / e = a / e + b / e := by
  obtain ⟨t, rfl⟩ := hd
  rw [Nat.mul_add_div he, Nat.mul_div_cancel_left _ he]

theorem div_lt_cdiv (B L x : ℕ) (hB : 0 < B) (hx : x < L) : x / B < cdiv L B := by
  unfold cdiv
  have hL : 1 ≤ L := by omega
  have h1 : L + B - 1 = (L - 1) + B := by omega
  rw [h1, Nat.add_div_right _ hB]
  have h2 : x / B ≤ (L - 1) / B := Nat.div_le_div_right (by omega)
  omega

theorem div_mul_add_mod (x B : ℕ) : x / B * B + x % B = x := by
  rw [Nat.mul_comm]
  exact Nat.div_add_mod x B

theorem tile_cover_unique (B p t x : ℕ) (hB : 0 < B) (ht : t < B)
    (h : p * B + t = x) : p = x / B ∧ t = x % B := by
  have h1 : (p * B + t) / B = p := by
    have h0 : p * B + t = t + B * p := by ring
    rw [h0, Nat.add_mul_div_left _ _ hB, Nat.div_eq_of_lt ht]; omega
  have h2 : (p * B + t) % B = t := by
    have h0 : p * B + t = B * p + t := by ring
    rw [h0, Nat.mul_add_mod, Nat.mod_eq_of_lt ht]
  constructor
  · rw [← h, h1]
  · rw [← h, h2]

theorem sum_tile_eq (B L x : ℕ) (F : ℕ → ℕ → ℚ) (hB : 0 < B) (hx : x < L) :
    ∑ p ∈ Finset.range (cdiv L B), ∑ t ∈ Finset.range B,
        (if p * B + t = x then F p t else 0) = F (x / B) (x % B) := by
  rw [Finset.sum_eq_single_of_mem (x / B)
      (Finset.mem_range.mpr (div_lt_cdiv B L x hB hx))]
  · rw [Finset.sum_eq_single_of_mem (x % B)
        (Finset.mem_range.mpr (Nat.mod_lt _ hB))]
    · rw [if_pos (div_mul_add_mod x B)]
    · intro t ht hne
      rw [if_neg]
      intro h
      exact hne (tile_cover_unique B _ t x hB (Finset.mem_range.mp ht) h).2
  · intro p _ hne
    apply Finset.sum_eq_zero
    intro t ht
    rw [if_neg]
    intro h
    exact hne (tile_cover_unique B p t x hB (Finset.mem_range.mp ht) h).1

theorem gemmContribTo_eq (d : KernelData) (q : QuantGeom) (ms : ModeSel)
    (M N K BM BN BK SK pk i j : ℕ)
    (hBM : 0 < BM) (hBN : 0 < BN) (hi : i < M) (hj : j < N) :
    gemmContribTo d q ms M N K BM BN BK SK pk i j =
      gemmScaledAcc d q ms M N K BM BN BK SK (i / BM) (j / BN) pk (i % BM) (j % BN) := by
  unfold gemmContribTo
  have step1 :
      ∑ pm ∈ Finset.range (cdiv M BM), ∑ pn ∈ Finset.range (cdiv N BN),
        ∑ iLoc ∈ Finset.range BM, ∑ jLoc ∈ Finset.range BN,
          (if pm * BM + iLoc = i ∧ pn * BN + jLoc = j ∧ pm * BM + iLoc < M ∧
              pn * BN + jLoc < N
           then gemmScaledAcc d q ms M N K BM BN BK SK pm pn pk iLoc jLoc else 0) =
      ∑ pm ∈ Finset.range (cdiv M BM), ∑ iLoc ∈ Finset.range BM,
        (if pm * BM + iLoc = i then
          ∑ pn ∈ Finset.range (cdiv N BN), ∑ jLoc ∈ Finset.range BN,
            (if pn * BN + jLoc = j
             then gemmScaledAcc d q ms M N K BM BN BK SK pm pn pk iLoc jLoc else 0)
         else 0) := by
    refine Finset.sum_congr rfl fun pm _ => ?_
    rw [Finset.sum_comm]
    refine Finset.sum_congr rfl fun iLoc _ => ?_
    by_cases h1 : pm * BM + iLoc = i
    · rw [if_pos h1]
      refine Finset.sum_congr rfl fun pn _ => Finset.sum_congr rfl fun jLoc _ => ?_
      by_cases h2 : pn * BN + jLoc = j
      · rw [if_pos ⟨h1, h2, by omega, by omega⟩, if_pos h2]
      · rw [if_neg (by tauto), if_neg h2]
    · rw [if_neg h1]
      refine Finset.sum_eq_zero fun pn _ => Finset.sum_eq_zero fun jLoc _ => ?_
      rw [if_neg (by tauto)]
  rw [step1,
    sum_tile_eq BM M i
      (fun pm iLoc =>
        ∑ pn ∈ Finset.range (cdiv N BN), ∑ jLoc ∈ Finset.range BN,
          (if pn * BN + jLoc = j
           then gemmScaledAcc d q ms M N K BM BN BK SK pm pn pk iLoc jLoc else 0))
      hBM hi,
    sum_tile_eq BN N j
      (fun pn jLoc => gemmScaledAcc d q ms M N K BM BN BK SK (i / BM) pn pk (i % BM) jLoc)
      hBN hj]

theorem gemmCAfter_atomic (d : KernelData) (q : QuantGeom) (ms : ModeSel)
    (M N K BM BN BK SK : ℕ) (C0 : ℕ → ℕ → ℚ) (i j : ℕ)
    (hSK : 1 < SK) (hBM : 0 < BM) (hBN : 0 < BN) (hi : i < M) (hj : j < N) :
    gemmCAfter d q ms M N K BM BN BK SK C0 i j =
      C0 i j + ∑ pk ∈ Finset.range SK,
        gemmScaledAcc d q ms M N K BM BN BK SK (i / BM) (j / BN) pk (i % BM) (j % BN) := by
  unfold gemmCAfter
  rw [if_pos hSK]
  congr 1
  exact Finset.sum_congr rfl fun pk _ =>
    gemmContribTo_eq d q ms M N K BM BN BK SK pk i j hBM hBN hi hj

theorem gemmCAfter_store (d : KernelData) (q : QuantGeom) (ms : ModeSel)
    (M N K BM BN BK : ℕ) (C0 : ℕ → ℕ → ℚ) (i j : ℕ)
    (hBM : 0 < BM) (hBN : 0 < BN) (hi : i < M) (hj : j < N) :
    gemmCAfter d q ms M N K BM BN BK 1 C0 i j =
      gemmScaledAcc d q ms M N K BM BN BK 1 (i / BM) (j / BN) 0 (i % BM) (j % BN) := by
  unfold gemmCAfter
  rw [if_neg (by omega), if_pos]
  · exact gemmContribTo_eq d q ms M N K BM BN BK 1 0 i j hBM hBN hi hj
  · exact ⟨i / BM, div_lt_cdiv BM M i hBM hi, j / BN, div_lt_cdiv BN N j hBN hj,
      i % BM, Nat.mod_lt _ hBM, j % BN, Nat.mod_lt _ hBN,
      div_mul_add_mod i BM, div_mul_add_mod j BN, hi, hj⟩

theorem gemmCAfter_zero_eq (d : KernelData) (q : QuantGeom) (ms : ModeSel)
    (M N K BM BN BK SK i j : ℕ)
    (hSK : 0 < SK) (hBM : 0 < BM) (hBN : 0 < BN) (hi : i < M) (hj : j < N) :
    gemmCAfter d q ms M N K BM BN BK SK (fun _ _ => 0) i j =
      ∑ pk ∈ Finset.range SK,
        gemmScaledAcc d q ms M N K BM BN BK SK (i / BM) (j / BN) pk (i % BM) (j % BN) := by
  rcases Nat.lt_or_ge 1 SK with h | h
  · rw [gemmCAfter_atomic d q ms M N K BM BN BK SK _ i j h hBM hBN hi hj, zero_add]
  · have hSK1 : SK = 1 := by omega
    subst hSK1
    rw [gemmCAfter_store d q ms M N K BM BN BK _ i j hBM hBN hi hj, Finset.sum_range_one]

theorem gemm_term_eq (d : KernelData) (q : QuantGeom) (ms : ModeSel)
    (BK SK pk kk iter col : ℕ) (hkk : kk < BK) (hBK : 0 < BK)
    (he : q.e ∣ BK) (hg : BK ∣ q.g) :
    gemmDeqB d q ms BK SK pk kk iter col =
      refDeq d q ms ((iter * SK + pk) * BK + kk) col := by
  have hepos : 0 < q.e := by
    rcases Nat.eq_zero_or_pos q.e with h | h
    · rw [h, Nat.zero_dvd] at he; omega
    · exact h
  have hrow : gemmBRow q BK SK pk kk iter = ((iter * SK + pk) * BK + kk) / q.e := by
    unfold gemmBRow
    rw [add_mul_div_of_dvd q.e BK pk kk he hepos,
      add_mul_div_of_dvd q.e BK (iter * SK + pk) kk he hepos]
    ring
  have hshift2 : gemmQShift q BK pk kk = ((iter * SK + pk) * BK + kk) % q.e * q.Wn := by
    unfold gemmQShift
    rw [add_mul_mod_of_dvd q.e BK pk kk he,
      add_mul_mod_of_dvd q.e BK (iter * SK + pk) kk he]
  have hgrp : gemmKm q BK SK pk iter = ((iter * SK + pk) * BK + kk) / q.g := by
    unfold gemmKm
    rw [div_block_group BK q.g (iter * SK + pk) kk hkk hg]
  unfold gemmDeqB refDeq
  rw [hrow, hshift2, hgrp]

theorem gemm_splitk_sum (d : KernelData) (q : QuantGeom) (ms : ModeSel)
    (M K BM BN BK SK pm pn iLoc jLoc : ℕ)
    (hBK : 0 < BK) (hSK : 0 < SK) (he : q.e ∣ BK) (hg : BK ∣ q.g)
    (hK : BK * SK ∣ K) :
    ∑ pk ∈ Finset.range SK, gemmAcc d q ms M K BM BN BK SK pm pn pk iLoc jLoc =
      ∑ k ∈ Finset.range K,
        gemmAval d M (pm * BM + iLoc) k * refDeq d q ms k (pn * BN + jLoc) := by
  obtain ⟨m, hm⟩ := hK
  have hpos : 0 < BK * SK := Nat.mul_pos hBK hSK
  have hnk : cdiv K (BK * SK) = m := by rw [hm]; exact cdiv_of_dvd _ _ hpos
  have hL :
      ∑ pk ∈ Finset.range SK, gemmAcc d q ms M K BM BN BK SK pm pn pk iLoc jLoc =
      ∑ pk ∈ Finset.range SK, ∑ iter ∈ Finset.range m, ∑ kk ∈ Finset.range BK,
        gemmAval d M (pm * BM + iLoc) ((iter * SK + pk) * BK + kk) *
          refDeq d q ms ((iter * SK + pk) * BK + kk) (pn * BN + jLoc) := by
    refine Finset.sum_congr rfl fun pk _ => ?_
    unfold gemmAcc
    rw [hnk]
    refine Finset.sum_congr rfl fun iter _ => Finset.sum_congr rfl fun kk hkk => ?_
    rw [show gemmACol BK SK pk kk iter = (iter * SK + pk) * BK + kk from by
        unfold gemmACol; ring,
      gemm_term_eq d q ms BK SK pk kk iter (pn * BN + jLoc)
        (Finset.mem_range.mp hkk) hBK he hg]
  have hR :
      ∑ k ∈ Finset.range K,
        gemmAval d M (pm * BM + iLoc) k * refDeq d q ms k (pn * BN + jLoc) =
      ∑ iter ∈ Finset.range m, ∑ pk ∈ Finset.range SK, ∑ kk ∈ Finset.range BK,
        gemmAval d M (pm * BM + iLoc) ((iter * SK + pk) * BK + kk) *
          refDeq d q ms ((iter * SK + pk) * BK + kk) (pn * BN + jLoc) := by
    have hK2 : K = m * SK * BK := by rw [hm]; ring
    rw [hK2, sum_range_mul _ (m * SK) BK, sum_range_mul _ m SK]
  rw [hL, hR, Finset.sum_comm]

theorem cdiv_one (a : ℕ) : cdiv a 1 = a := by unfold cdiv; simp

theorem gemvAcc_merge (d : KernelData) (q : QuantGeom) (ms : ModeSel)
    (BN BK pm pn inst jLoc : ℕ) (hBK : 0 < BK) (he : q.e ∣ BK) :
    gemvAcc d q ms BN BK pm pn inst jLoc =
      ∑ t ∈ Finset.range (BK * 2),
        d.A pm (gemvBase BK inst + t) *
          dequantizeValue ms.Wmode
            (unpackCode (d.Bq ((gemvBase BK inst + t) / q.e) (pn * BN + jLoc))
              ((gemvBase BK inst + t) % q.e * q.Wn) q.mask)
            (d.scalesF (metaIndex d (gemvKm q BK inst) (pn * BN + jLoc)))
            (if ms.zScalar then d.zerosF 0
             else d.zerosF (metaIndex d (gemvKm q BK inst) (pn * BN + jLoc))) := by
  have hepos : 0 < q.e := by
    rcases Nat.eq_zero_or_pos q.e with h | h
    · rw [h, Nat.zero_dvd] at he; omega
    · exact h
  have hbase : q.e ∣ gemvBase BK inst := by
    unfold gemvBase
    exact Dvd.dvd.mul_left he (2 * inst)
  have h2 : BK * 2 = BK + BK := by ring
  rw [h2, sum_range_add_shift]
  unfold gemvAcc
  congr 1
  refine Finset.sum_congr rfl fun kk _ => ?_
  show d.A pm (gemvBase BK inst + kk + BK) *
        dequantizeValue ms.Wmode
          (unpackCode (d.Bq ((gemvBase BK inst + kk) / q.e + BK / q.e) (pn * BN + jLoc))
            ((gemvBase BK inst + kk) % q.e * q.Wn) q.mask)
          (d.scalesF (metaIndex d (gemvKm q BK inst) (pn * BN + jLoc)))
          (if ms.zScalar then d.zerosF 0
           else d.zerosF (metaIndex d (gemvKm q BK inst) (pn * BN + jLoc))) = _
  have hcol : gemvBase BK inst + kk + BK = gemvBase BK inst + (BK + kk) := by ring
  have hrow : (gemvBase BK inst + kk) / q.e + BK / q.e =
      (gemvBase BK inst + (BK + kk)) / q.e := by
    rw [add_div_of_dvd q.e (gemvBase BK inst) kk hbase hepos,
      add_div_of_dvd q.e (gemvBase BK inst) (BK + kk) hbase hepos,
      add_div_of_dvd q.e BK kk he hepos]
    ring
  have hmod : (gemvBase BK inst + kk) % q.e = (gemvBase BK inst + (BK + kk)) % q.e := by
    obtain ⟨t, ht⟩ := hbase
    obtain ⟨s, hs⟩ := he
    rw [ht, hs]
    have ha : q.e * t + kk = q.e * t + kk := rfl
    rw [Nat.mul_add_mod]
    have hb : q.e * t + (q.e * s + kk) = q.e * (t + s) + kk := by ring
    rw [hb, Nat.mul_add_mod]
  rw [hcol, hrow, hmod]

theorem gemvAcc_ref (d : KernelData) (q : QuantGeom) (ms : ModeSel)
    (BN BK pm pn inst jLoc : ℕ) (hBK : 0 < BK) (he : q.e ∣ BK)
    (hg : 2 * BK ∣ q.g) :
    gemvAcc d q ms BN BK pm pn inst jLoc =
      ∑ t ∈ Finset.range (BK * 2),
        d.A pm (gemvBase BK inst + t) *
          refDeq d q ms (gemvBase BK inst + t) (pn * BN + jLoc) := by
  rw [gemvAcc_merge d q ms BN BK pm pn inst jLoc hBK he]
  refine Finset.sum_congr rfl fun t ht => ?_
  have htlt : t < 2 * BK := by
    have := Finset.mem_range.mp ht; omega
  have hgrp : gemvKm q BK inst = (gemvBase BK inst + t) / q.g := by
    unfold gemvKm gemvBase
    have h1 : 2 * inst * BK = inst * (2 * BK) := by ring
    rw [h1, div_block_group (2 * BK) q.g inst t htlt hg]
  rw [hgrp]
  rfl

theorem gemvCAfter_collapse (d : KernelData) (q : QuantGeom) (ms : ModeSel)
    (M N K BN BK : ℕ) (C0 : ℕ → ℕ → ℚ) (i j : ℕ)
    (hBN : 0 < BN) (hi : i < M) (hj : j < N) :
    gemvCAfter d q ms M N K BN BK C0 i j =
      C0 i j + ∑ inst ∈ Finset.range (cdiv K (BK * 2)),
        gemvScaledAcc d q ms M N BN BK i (j / BN) inst (j % BN) := by
  unfold gemvCAfter
  congr 1
  have step1 :
      ∑ pm ∈ Finset.range (cdiv M 1), ∑ pn ∈ Finset.range (cdiv N BN),
        ∑ inst ∈ Finset.range (cdiv K (BK * 2)), ∑ jLoc ∈ Finset.range BN,
          (if pm = i ∧ pn * BN + jLoc = j
           then gemvScaledAcc d q ms M N BN BK pm pn inst jLoc else 0) =
      ∑ pm ∈ Finset.range (cdiv M 1),
        (if pm = i then
          ∑ pn ∈ Finset.range (cdiv N BN), ∑ inst ∈ Finset.range (cdiv K (BK * 2)),
            ∑ jLoc ∈ Finset.range BN,
              (if pn * BN + jLoc = j
               then gemvScaledAcc d q ms M N BN BK pm pn inst jLoc else 0)
         else 0) := by
    refine Finset.sum_congr rfl fun pm _ => ?_
    by_cases h1 : pm = i
    · rw [if_pos h1]
      refine Finset.sum_congr rfl fun pn _ => Finset.sum_congr rfl fun inst _ =>
        Finset.sum_congr rfl fun jLoc _ => ?_
      by_cases h2 : pn * BN + jLoc = j
      · rw [if_pos ⟨h1, h2⟩, if_pos h2]
      · rw [if_neg (by tauto), if_neg h2]
    · rw [if_neg h1]
      refine Finset.sum_eq_zero fun pn _ => Finset.sum_eq_zero fun inst _ =>
        Finset.sum_eq_zero fun jLoc _ => ?_
      rw [if_neg (by tauto)]
  rw [step1, Finset.sum_eq_single_of_mem i
      (Finset.mem_range.mpr (by rw [cdiv_one]; exact hi)), if_pos rfl]
  · rw [Finset.sum_comm]
    rw [Finset.sum_congr rfl fun inst _ =>
      sum_tile_eq BN N j
        (fun pn jLoc => gemvScaledAcc d q ms M N BN BK i pn inst jLoc) hBN hj]
  · intro pm _ hne
    rw [if_neg hne]

theorem gemmStep_spec (m k g e : ℕ) (c : CandCfg)
    (key : ℕ × ℕ × ℕ × ℕ × ℕ × ℕ × ℕ × ℕ × ℕ × ℕ) (out : CandCfg)
    (h : gemmStep m k g e c = some (key, out)) :
    out.bk ≤ g ∧ k % (out.bk * out.sk) = 0 ∧ gemmKeyOf out = key ∧
      out.preHook = decide (1 < out.sk) ∧ (m ≤ 16 → 2 ≤ out.sk ∧ out.bm = 16) := by
  simp only [gemmStep] at h
  split_ifs at h with h1 h2 h3
  simp only [Option.some.injEq, Prod.mk.injEq] at h
  obtain ⟨hkey, hout⟩ := h
  subst hout
  simp only [is_divisible, Bool.not_eq_false, beq_iff_eq] at h2
  refine ⟨Nat.min_le_right _ _, h2, hkey, rfl, ?_⟩
  intro hm
  have hn32 : ¬ 32 ≤ m := by omega
  have hn64 : ¬ 64 ≤ m := by omega
  constructor
  · show 2 ≤ gemmSkAdjust m c.sk
    unfold gemmSkAdjust
    simp only [if_pos hm, if_neg hn32]
    exact Nat.le_max_right _ _
  · show gemmBmAdjust m c.bm = 16
    unfold gemmBmAdjust
    simp only [if_pos hm, if_neg hn32, if_neg hn64]

theorem gemmPruneEnum_sound (m k g e : ℕ) (configs : List CandCfg)
    (used : List (ℕ × ℕ × ℕ × ℕ × ℕ × ℕ × ℕ × ℕ × ℕ × ℕ)) :
    (∀ c ∈ gemmPruneEnum m k g e configs used,
      c.bk ≤ g ∧ k % (c.bk * c.sk) = 0 ∧ c.preHook = decide (1 < c.sk) ∧
        (m ≤ 16 → 2 ≤ c.sk ∧ c.bm = 16) ∧ gemmKeyOf c ∉ used) ∧
      List.Pairwise (fun a b => gemmKeyOf a ≠ gemmKeyOf b)
        (gemmPruneEnum m k g e configs used) := by
  induction configs generalizing used with
  | nil => simp [gemmPruneEnum]
  | cons c rest ih =>
    rcases hstep : gemmStep m k g e c with _ | ku
    · simpa [gemmPruneEnum, hstep] using ih used
    · by_cases hk : ku.1 ∈ used
      · simpa [gemmPruneEnum, hstep, hk] using ih used
      · obtain ⟨hbk, hdvd, hkey, hpre, hm16⟩ :=
          gemmStep_spec m k g e c ku.1 ku.2 (by rw [hstep])
        have hrec := ih (ku.1 :: used)
        have hout : gemmPruneEnum m k g e (c :: rest) used =
            ku.2 :: gemmPruneEnum m k g e rest (ku.1 :: used) := by
          simp [gemmPruneEnum, hstep, hk]
        rw [hout]
        constructor
        · intro x hx
          rcases List.mem_cons.mp hx with hx1 | hx2
          · subst hx1
            exact ⟨hbk, hdvd, hpre, hm16, by rw [hkey]; exact hk⟩
          · obtain ⟨a1, a2, a3, a4, a5⟩ := hrec.1 x hx2
            exact ⟨a1, a2, a3, a4, fun hmem => a5 (List.mem_cons_of_mem _ hmem)⟩
        · refine List.pairwise_cons.mpr ⟨?_, hrec.2⟩
          intro x hx
          have h5 := (hrec.1 x hx).2.2.2.2
          rw [hkey]
          intro hcontra
          exact h5 (by rw [← hcontra]; exact List.mem_cons_self _ _)

theorem gemvStep_spec (m n k g : ℕ) (c : GemvCand)
    (key : ℕ × ℕ × ℕ × ℕ × ℕ × ℕ × ℕ) (out : GemvCand)
    (h : gemvStep m n k g c = some (key, out)) :
    out.bk * 2 ≤ g ∧ k % (out.bk * 2) = 0 := by
  simp only [gemvStep] at h
  split_ifs at h with h1 h2
  · simp only [Option.some.injEq, Prod.mk.injEq] at h
    obtain ⟨hkey, hout⟩ := h
    subst hout
    simp only [is_divisible, beq_iff_eq] at h2
    exact ⟨h1, h2⟩

theorem gemvPruneEnum_sound (m n k g : ℕ) (configs : List GemvCand)
    (used : List (ℕ × ℕ × ℕ × ℕ × ℕ × ℕ × ℕ)) :
    ∀ c ∈ gemvPruneEnum m n k g configs used, c.bk * 2 ≤ g ∧ k % (c.bk * 2) = 0 := by
  induction configs generalizing used with
  | nil => simp [gemvPruneEnum]
  | cons c rest ih =>
    rcases hstep : gemvStep m n k g c with _ | ku
    · simpa [gemvPruneEnum, hstep] using ih used
    · by_cases hk : ku.1 ∈ used
      · simpa [gemvPruneEnum, hstep, hk] using ih used
      · have hout : gemvPruneEnum m n k g (c :: rest) used =
            ku.2 :: gemvPruneEnum m n k g rest (ku.1 :: used) := by
          simp [gemvPruneEnum, hstep, hk]
        rw [hout]
        intro x hx
        rcases List.mem_cons.mp hx with hx1 | hx2
        · subst hx1
          exact gemvStep_spec m n k g c ku.1 ku.2 (by rw [hstep])
        · exact ih (ku.1 :: used) x hx2

theorem tile_col_lt (B L p t : ℕ) (hdvd : B ∣ L) (hp : p < cdiv L B) (ht : t < B) :
    p * B + t < L := by
  obtain ⟨m, rfl⟩ := hdvd
  have hB : 0 < B := by omega
  rw [cdiv_of_dvd B m hB] at hp
  have h1 : p * B + B ≤ m * B := by
    have h2 : (p + 1) * B ≤ m * B := Nat.mul_le_mul_right B (by omega)
    rw [Nat.succ_mul] at h2
    exact h2
  have h3 : m * B = B * m := Nat.mul_comm _ _
  omega

theorem lane_lt (B S pk kk : ℕ) (hpk : pk < S) (hkk : kk < B) :
    pk * B + kk < B * S := by
  have h1 : (pk + 1) * B ≤ S * B := Nat.mul_le_mul_right B (by omega)
  rw [Nat.succ_mul] at h1
  have h2 : S * B = B * S := Nat.mul_comm _ _
  omega

/-! ### Claim theorems -/

/-- C1: for every activation matrix, packed weight matrix and scales/zeros
metadata, both `gemm_splitK_A16fWnO16f_int32packing_forward` (its kernel
summed over all grid instances, `C` pre-zeroed) and
`gemv_revsplitK_A16fWnO16f_int32packing_forward` produce, at every in-bounds
output cell, exactly `A · dequantize_reference(B, scales, zeros)` followed by
the (shared) channel-scale correction, for every `W_group_mode` in 0..4 and
every `channel_scale_mode` in 0..3.  Arithmetic is exact over `ℚ`, which is
equality "within floating-point tolerance of the accumulation dtype".  The
divisibility preconditions are `BLOCK_SIZE_K * SPLIT_K ∣ K`,
`elements_per_sample ∣ BLOCK_SIZE_K` and `BLOCK_SIZE_K ∣ group_size`
(`BLOCK_SIZE_K * SPLIT_K ∣ group_size` for the GEMV two-chunk unroll) — for
the power-of-two block/group sizes of the config space these are exactly the
spec's `K % (BLOCK_SIZE_K*SPLIT_K) == 0`, `BLOCK_SIZE_K <= group_size` and
`BLOCK_SIZE_K * SPLIT_K <= group_size` invariants; pre-zeroing is `C0 = 0`. -/
theorem C1_kernels_match_reference (d : KernelData) (q : QuantGeom) (ms : ModeSel)
    (M N K BM BN BK SK BN2 BK2 i j : ℕ)
    (hBM : 0 < BM) (hBN : 0 < BN) (hBK : 0 < BK) (hSK : 0 < SK)
    (hBN2 : 0 < BN2) (hBK2 : 0 < BK2)
    (heBK : q.e ∣ BK) (hgBK : BK ∣ q.g) (hKdvd : BK * SK ∣ K)
    (heBK2 : q.e ∣ BK2) (hgBK2 : 2 * BK2 ∣ q.g) (hKdvd2 : BK2 * 2 ∣ K)
    (hi : i < M) (hj : j < N) (hW : ms.Wmode ≤ 4) (hcs : ms.csm ≤ 3) :
    gemmCAfter d q ms M N K BM BN BK SK (fun _ _ => 0) i j =
      refMatmul d q ms M N K i j ∧
    gemvCAfter d q ms M N K BN2 BK2 (fun _ _ => 0) i j =
      refMatmul d q ms M N K i j := by
  have hrow : i / BM * BM + i % BM = i := div_mul_add_mod i BM
  have hcol : j / BN * BN + j % BN = j := div_mul_add_mod j BN
  have hcol2 : j / BN2 * BN2 + j % BN2 = j := div_mul_add_mod j BN2
  constructor
  · rw [gemmCAfter_zero_eq d q ms M N K BM BN BK SK i j hSK hBM hBN hi hj]
    unfold gemmScaledAcc
    simp only [hrow, hcol]
    rw [← Finset.mul_sum,
      gemm_splitk_sum d q ms M K BM BN BK SK (i / BM) (j / BN) (i % BM) (j % BN)
        hBK hSK heBK hgBK hKdvd]
    simp only [hrow, hcol]
    unfold refMatmul
    congr 1
    refine Finset.sum_congr rfl fun k _ => ?_
    unfold gemmAval
    rw [if_pos hi]
  · rw [gemvCAfter_collapse d q ms M N K BN2 BK2 _ i j hBN2 hi hj, zero_add]
    unfold gemvScaledAcc
    simp only [hcol2]
    rw [← Finset.mul_sum]
    unfold refMatmul
    congr 1
    obtain ⟨m, hm⟩ := hKdvd2
    have hpos : 0 < BK2 * 2 := by omega
    have hcd : cdiv K (BK2 * 2) = m := by rw [hm]; exact cdiv_of_dvd _ _ hpos
    have hstep1 :
        ∑ inst ∈ Finset.range (cdiv K (BK2 * 2)),
          gemvAcc d q ms BN2 BK2 i (j / BN2) inst (j % BN2) =
        ∑ inst ∈ Finset.range m, ∑ t ∈ Finset.range (BK2 * 2),
          d.A i (gemvBase BK2 inst + t) * refDeq d q ms (gemvBase BK2 inst + t) j := by
      rw [hcd]
      refine Finset.sum_congr rfl fun inst _ => ?_
      rw [gemvAcc_ref d q ms BN2 BK2 i (j / BN2) inst (j % BN2) hBK2 heBK2 hgBK2]
      simp only [hcol2]
    rw [hstep1]
    have hK2 : K = m * (BK2 * 2) := by rw [hm]; ring
    rw [hK2, sum_range_mul]
    refine Finset.sum_congr rfl fun inst _ => Finset.sum_congr rfl fun t _ => ?_
    have hb : gemvBase BK2 inst + t = inst * (BK2 * 2) + t := by
      unfold gemvBase; ring
    rw [hb]

/-- Witness for C1 at a concrete launch: `M = N = 1`, `K = 2`,
`BLOCK_SIZE_K = 1`, `SPLIT_K = 2`, 2-bit packing data with
`elements_per_sample = 1`, `group_size = 2`, `W_group_mode = 3`,
`channel_scale_mode = 1`. -/
theorem C1_kernels_match_reference_witness :
    gemmCAfter ⟨fun _ k => (k + 1 : ℚ), fun r c => r + 2 * c + 5, fun x => (x + 1 : ℚ),
        fun _ => (1 : ℚ), fun _ => (2 : ℚ), 1, 1⟩ ⟨2, 3, 1, 2⟩ ⟨3, 1, false⟩
        1 1 2 1 1 1 2 (fun _ _ => 0) 0 0 =
      refMatmul ⟨fun _ k => (k + 1 : ℚ), fun r c => r + 2 * c + 5, fun x => (x + 1 : ℚ),
        fun _ => (1 : ℚ), fun _ => (2 : ℚ), 1, 1⟩ ⟨2, 3, 1, 2⟩ ⟨3, 1, false⟩ 1 1 2 0 0 ∧
    gemvCAfter ⟨fun _ k => (k + 1 : ℚ), fun r c => r + 2 * c + 5, fun x => (x + 1 : ℚ),
        fun _ => (1 : ℚ), fun _ => (2 : ℚ), 1, 1⟩ ⟨2, 3, 1, 2⟩ ⟨3, 1, false⟩
        1 1 2 1 1 (fun _ _ => 0) 0 0 =
      refMatmul ⟨fun _ k => (k + 1 : ℚ), fun r c => r + 2 * c + 5, fun x => (x + 1 : ℚ),
        fun _ => (1 : ℚ), fun _ => (2 : ℚ), 1, 1⟩ ⟨2, 3, 1, 2⟩ ⟨3, 1, false⟩ 1 1 2 0 0 :=
  C1_kernels_match_reference _ _ _ 1 1 2 1 1 1 2 1 1 0 0
    (by decide) (by decide) (by decide) (by decide) (by decide) (by decide)
    (by decide) (by decide) (by decide) (by decide) (by decide) (by decide)
    (by decide) (by decide) (by decide) (by decide)

/-- C2 counterexample: with `N = 8` and `BLOCK_SIZE_N = 32` (a config-space
value), the single GEMM grid instance's packed-weight tile load reads column
`31 >= N` of `B` — the load of line 264 carries no mask, so the claim that
every boundary-crossing tile access is masked against the true `N` is false.
(The same unmasked `offs_bn` columns feed the GEMV weight load and its
unmasked final `tl.atomic_add`.) -/
theorem C2_counterexample :
    ¬ (∀ pn, pn < cdiv 8 32 → ∀ x ∈ tileCols 32 pn, x < 8) := by decide

/-- C2 amended: the activation tile load is masked against `M` and the GEMM
final store / atomic-add is masked against `M` and `N`; but the packed-weight
tile load (and the in-loop metadata loads, which use the same `offs_bn`) and
the GEMV final atomic-add are unmasked, so their column accesses stay in
bounds only when `BLOCK_SIZE_N` divides `N`; the K-direction accesses stay in
bounds exactly under the `K % (BLOCK_SIZE_K * SPLIT_K) == 0` precondition. -/
theorem C2_masking_amended (M N K BM BN BK SK BN2 BK2 : ℕ)
    (hBNdvd : BN ∣ N) (hKdvd : BK * SK ∣ K)
    (hBN2dvd : BN2 ∣ N) (hK2dvd : BK2 * 2 ∣ K) :
    (∀ pm, ∀ r ∈ gemmALoadRows M BM pm, r < M) ∧
    (∀ pm pn, ∀ c ∈ gemmStoreCells M N BM BN pm pn, c.1 < M ∧ c.2 < N) ∧
    (∀ pn, pn < cdiv N BN → ∀ x ∈ tileCols BN pn, x < N) ∧
    (∀ pk iter, pk < SK → iter < cdiv K (BK * SK) →
      ∀ x ∈ gemmALoadColsK BK SK pk iter, x < K) ∧
    (∀ pn, pn < cdiv N BN2 → ∀ x ∈ tileCols BN2 pn, x < N) ∧
    (∀ inst t, inst < cdiv K (BK2 * 2) → t < BK2 * 2 → gemvBase BK2 inst + t < K) := by
  refine ⟨?_, ?_, ?_, ?_, ?_, ?_⟩
  · intro pm r hr
    exact (Finset.mem_filter.mp hr).2
  · intro pm pn c hc
    exact (Finset.mem_filter.mp hc).2
  · intro pn hpn x hx
    obtain ⟨t, ht, rfl⟩ := (by simpa [tileCols] using hx : ∃ t < BN, pn * BN + t = x)
    exact tile_col_lt BN N pn t hBNdvd hpn ht
  · intro pk iter hpk hiter x hx
    obtain ⟨kk, hkkB, rfl⟩ :=
      (by simpa [gemmALoadColsK] using hx : ∃ kk < BK, gemmACol BK SK pk kk iter = x)
    have hlane : pk * BK + kk < BK * SK := lane_lt BK SK pk kk hpk hkkB
    have h1 : gemmACol BK SK pk kk iter = iter * (BK * SK) + (pk * BK + kk) := by
      unfold gemmACol; ring
    rw [h1]
    exact tile_col_lt (BK * SK) K iter (pk * BK + kk) hKdvd hiter hlane
  · intro pn hpn x hx
    obtain ⟨t, ht, rfl⟩ := (by simpa [tileCols] using hx : ∃ t < BN2, pn * BN2 + t = x)
    exact tile_col_lt BN2 N pn t hBN2dvd hpn ht
  · intro inst t hinst ht
    have h1 : gemvBase BK2 inst + t = inst * (BK2 * 2) + t := by
      unfold gemvBase; ring
    rw [h1]
    exact tile_col_lt (BK2 * 2) K inst t hK2dvd hinst ht

/-- Witness for C2 amended at `M = 3, N = 64, K = 128` with the config-space
sizes `BM = 16, BN = 32, BK = 32, SK = 2, BN2 = 64, BK2 = 16`. -/
theorem C2_masking_amended_witness :
    (∀ pm, ∀ r ∈ gemmALoadRows 3 16 pm, r < 3) ∧
    (∀ pm pn, ∀ c ∈ gemmStoreCells 3 64 16 32 pm pn, c.1 < 3 ∧ c.2 < 64) ∧
    (∀ pn, pn < cdiv 64 32 → ∀ x ∈ tileCols 32 pn, x < 64) ∧
    (∀ pk iter, pk < 2 → iter < cdiv 128 (32 * 2) →
      ∀ x ∈ gemmALoadColsK 32 2 pk iter, x < 128) ∧
    (∀ pn, pn < cdiv 64 64 → ∀ x ∈ tileCols 64 pn, x < 64) ∧
    (∀ inst t, inst < cdiv 128 (16 * 2) → t < 16 * 2 → gemvBase 16 inst + t < 128) :=
  C2_masking_amended 3 64 128 16 32 32 2 64 16
    (by decide) (by decide) (by decide) (by decide)

/-- C3 counterexample: the configuration-cache fast path of the GEMM
`kernel_config_pruner` (lines 25-39) yields the cached configuration without
re-checking any constraint — with `K = 3` and a cache entry storing
`BLOCK_SIZE_K = 2, SPLIT_K = 1`, the yielded configuration violates
`K % (BLOCK_SIZE_K * SPLIT_K) == 0`, so the claim does not extend to the
cache fast path. -/
theorem C3_counterexample :
    ¬ (∀ c ∈ gemm_kernel_config_pruner 16 7 3 8 1
        (fun _ => some [(CKey.BLOCK_SIZE_M, 16), (CKey.BLOCK_SIZE_N, 32),
          (CKey.BLOCK_SIZE_K, 2), (CKey.GROUP_SIZE_M, 8), (CKey.SPLIT_K, 1),
          (CKey.A_load_order, 0), (CKey.meta_evict_policy, 0), (CKey.atomic_mode, 0),
          (CKey.num_stages, 2), (CKey.num_warps, 4), (CKey.num_ctas, 1)]) [],
        3 % (c.bk * c.sk) = 0 ∧ c.bk ≤ 8) := by decide

/-- C3 amended: every configuration yielded by the GEMM
`kernel_config_pruner`'s enumeration path (taken whenever the cache has no
entry for the signature) satisfies `K % (BLOCK_SIZE_K * SPLIT_K) == 0` and
`BLOCK_SIZE_K <= group_size`, and no two yielded configurations share the
effective `(block sizes, GROUP_SIZE_M, SPLIT_K, A_load_order,
meta_evict_policy, atomic_mode, num_stages, num_warps)` tuple; the cache fast
path yields the stored configuration without re-validating the constraints. -/
theorem C3_pruner_amended (M n k g e : ℕ) (cache : ConfigCache)
    (configs : List CandCfg)
    (hmiss : cache (pow2ceil M, n, k, g, e) = none) :
    (∀ c ∈ gemm_kernel_config_pruner M n k g e cache configs,
      k % (c.bk * c.sk) = 0 ∧ c.bk ≤ g) ∧
    List.Pairwise (fun a b => gemmKeyOf a ≠ gemmKeyOf b)
      (gemm_kernel_config_pruner M n k g e cache configs) := by
  have hout : gemm_kernel_config_pruner M n k g e cache configs =
      gemmPruneEnum (pow2ceil M) k g e configs [] := by
    simp [gemm_kernel_config_pruner, hmiss]
  rw [hout]
  obtain ⟨h1, h2⟩ := gemmPruneEnum_sound (pow2ceil M) k g e configs []
  exact ⟨fun c hc => ⟨(h1 c hc).2.1, (h1 c hc).1⟩, h2⟩

/-- Witness for C3 amended: a cache miss with two candidates, one of which
survives (and a duplicate of it is pruned). -/
theorem C3_pruner_amended_witness :
    (∀ c ∈ gemm_kernel_config_pruner 4 7 64 64 8 (fun _ => none)
        [⟨64, 32, 32, 8, 1, 0, 0, 0, 2, 4, false⟩, ⟨64, 32, 32, 8, 1, 0, 0, 0, 2, 4, false⟩],
      64 % (c.bk * c.sk) = 0 ∧ c.bk ≤ 64) ∧
    List.Pairwise (fun a b => gemmKeyOf a ≠ gemmKeyOf b)
      (gemm_kernel_config_pruner 4 7 64 64 8 (fun _ => none)
        [⟨64, 32, 32, 8, 1, 0, 0, 0, 2, 4, false⟩, ⟨64, 32, 32, 8, 1, 0, 0, 0, 2, 4, false⟩]) :=
  C3_pruner_amended 4 7 64 64 8 (fun _ => none) _ rfl

/-- C4: every configuration yielded by the GEMV `kernel_config_pruner`
satisfies `BLOCK_SIZE_K * 2 <= group_size` (`SPLIT_K` is fixed at 2,
line 25) and `K % (BLOCK_SIZE_K * 2) == 0`; candidates violating either
constraint are skipped (lines 35-40), never yielded. -/
theorem C4_gemv_pruner_legal (m n k g : ℕ) (configs : List GemvCand) (c : GemvCand)
    (hc : c ∈ gemv_kernel_config_pruner m n k g configs) :
    c.bk * 2 ≤ g ∧ k % (c.bk * 2) = 0 :=
  gemvPruneEnum_sound m n k g configs [] c hc

/-- Witness for C4: `K = 64`, `group_size = 64`, one surviving candidate. -/
theorem C4_gemv_pruner_legal_witness :
    ((⟨1, 128, 32, 0, 0, 1, 4, true⟩ : GemvCand) ∈
      gemv_kernel_config_pruner 1 256 64 64 [⟨1, 128, 32, 0, 0, 1, 4, true⟩]) ∧
    ((⟨1, 128, 32, 0, 0, 1, 4, true⟩ : GemvCand).bk * 2 ≤ 64 ∧
      64 % ((⟨1, 128, 32, 0, 0, 1, 4, true⟩ : GemvCand).bk * 2) = 0) :=
  ⟨by decide,
    C4_gemv_pruner_legal 1 256 64 64 [⟨1, 128, 32, 0, 0, 1, 4, true⟩] _ (by decide)⟩

/-- C5 counterexample: a one-element zeros tensor of dtype float16 makes the
GEMV wrapper pass `zero_is_scalar = False` (its `zeros.item()` is a Python
`float`, so `isinstance(zeros, int)` fails), while the GEMM wrapper passes
`True` — the scalar-versus-per-group distinction is NOT decided purely by
element count in the GEMV entry point. -/
theorem C5_counterexample :
    gemv_zero_is_scalar 1 DType.float16 = false ∧ gemm_zero_is_scalar 1 = true := by
  decide

/-- C5 amended: for the GEMM entry point the flag is true iff the zeros
tensor has exactly one element; for the GEMV entry point it is true iff the
zeros tensor has exactly one element AND its dtype is integral (so that
`.item()` yields a Python `int`). -/
theorem C5_zero_is_scalar_amended (numel : ℕ) (dt : DType) :
    (gemm_zero_is_scalar numel = true ↔ numel = 1) ∧
    (gemv_zero_is_scalar numel dt = true ↔ numel = 1 ∧ dt.itemIsInt = true) := by
  constructor
  · simp [gemm_zero_is_scalar]
  · simp [gemv_zero_is_scalar]

/-- C6: when the process-wide configuration cache holds an entry for the
signature `(M rounded up to the next power of two, N, K, group_size,
elements_per_sample)` under the `GEMM_SPLITK` type, the GEMM
`kernel_config_pruner` yields exactly one configuration — the cached one,
reconstructed by popping the `num_stages`, `num_warps` and `num_ctas`
metadata entries out of the stored dict (the first two becoming the Config's
launch parameters, `num_ctas` dropped, and the pre-hook re-attached iff the
stored `SPLIT_K` exceeds 1) — and nothing else, whatever the candidate list. -/
theorem C6_cache_fast_path (M n k g e : ℕ) (configs : List CandCfg)
    (bm bn bk gm sk al ev am s w ct : ℕ) :
    gemm_kernel_config_pruner M n k g e
      (fun sig => if sig = (pow2ceil M, n, k, g, e) then
        some [(CKey.BLOCK_SIZE_M, bm), (CKey.BLOCK_SIZE_N, bn), (CKey.BLOCK_SIZE_K, bk),
          (CKey.GROUP_SIZE_M, gm), (CKey.SPLIT_K, sk), (CKey.A_load_order, al),
          (CKey.meta_evict_policy, ev), (CKey.atomic_mode, am),
          (CKey.num_stages, s), (CKey.num_warps, w), (CKey.num_ctas, ct)]
        else none) configs =
    [{ bm := bm, bn := bn, bk := bk, gm := gm, sk := sk, aLoad := al, evict := ev,
       atomic := am, stages := s, warps := w, preHook := decide (1 < sk) }] := by
  have hc : (fun sig : ℕ × ℕ × ℕ × ℕ × ℕ => if sig = (pow2ceil M, n, k, g, e) then
      some [(CKey.BLOCK_SIZE_M, bm), (CKey.BLOCK_SIZE_N, bn), (CKey.BLOCK_SIZE_K, bk),
        (CKey.GROUP_SIZE_M, gm), (CKey.SPLIT_K, sk), (CKey.A_load_order, al),
        (CKey.meta_evict_policy, ev), (CKey.atomic_mode, am),
        (CKey.num_stages, s), (CKey.num_warps, w), (CKey.num_ctas, ct)]
      else none) (pow2ceil M, n, k, g, e) =
      some [(CKey.BLOCK_SIZE_M, bm), (CKey.BLOCK_SIZE_N, bn), (CKey.BLOCK_SIZE_K, bk),
        (CKey.GROUP_SIZE_M, gm), (CKey.SPLIT_K, sk), (CKey.A_load_order, al),
        (CKey.meta_evict_policy, ev), (CKey.atomic_mode, am),
        (CKey.num_stages, s), (CKey.num_warps, w), (CKey.num_ctas, ct)] := if_pos rfl
  simp only [gemm_kernel_config_pruner, hc]
  rfl

/-- C7 counterexample: a call whose shapes are inconsistent
(`K = x.shape[1] = 8` but `W_q.shape[0] * elements_per_sample = 1 * 16`) is
flagged by the validation the claim describes, yet both entry points build
their launch plan without raising — the `assert` of GEMM line 727 / GEMV
line 264 is commented out and no other check exists. -/
theorem C7_counterexample :
    claimedValidate ⟨4, 8, 1, 16, 1, DType.int32, true, true, true, 3, 0, 128, 16⟩ =
      Except.error "Invalid Input Shapes" ∧
    gemm_splitK_forward_plan ⟨4, 8, 1, 16, 1, DType.int32, true, true, true, 3, 0, 128, 16⟩ =
      Except.ok ⟨4, 16, 8, 4, 16, true⟩ ∧
    gemv_revsplitK_forward_plan ⟨4, 8, 1, 16, 1, DType.int32, true, true, true, 3, 0, 128, 16⟩ =
      Except.ok ⟨4, 16, 8, 4, 16, true⟩ := by
  refine ⟨?_, rfl, rfl⟩
  rfl

/-- C7 amended: the entry points perform no validation at the
dispatch/selection layer — for every input they return a launch plan
(shapes read off `x` and `W_q`, the zero-scalar flag computed as in C5),
never an exception; the shape assertion present in the source is commented
out. -/
theorem C7_no_validation_amended (a : LaunchArgs) :
    gemm_splitK_forward_plan a =
      Except.ok ⟨a.xRows, a.wCols, a.xCols, a.xRows, a.wCols,
        gemm_zero_is_scalar a.zerosNumel⟩ ∧
    gemv_revsplitK_forward_plan a =
      Except.ok ⟨a.xRows, a.wCols, a.xCols, a.xRows, a.wCols,
        gemv_zero_is_scalar a.zerosNumel a.zerosDtype⟩ :=
  ⟨rfl, rfl⟩

/-- C8: the GEMM kernel's final write is a direct masked store exactly when
`SPLIT_K == 1` (overwriting the unique covering instance's scaled tile value,
independently of C's prior contents) and an atomic add with the configured
`atomic_mode` ordering exactly when `SPLIT_K > 1` (accumulating every
`pid_k`'s contribution onto C); which path runs is determined solely by
`SPLIT_K` (lines 328-331). -/
theorem C8_final_write_path (d : KernelData) (q : QuantGeom) (ms : ModeSel)
    (M N K BM BN BK SK am i j : ℕ)
    (hBM : 0 < BM) (hBN : 0 < BN) (hi : i < M) (hj : j < N) :
    (gemmFinalWrite SK am = FinalWrite.store ↔ ¬ 1 < SK) ∧
    (SK = 1 → gemmFinalWrite SK am = FinalWrite.store ∧
      ∀ C0 : ℕ → ℕ → ℚ, gemmCAfter d q ms M N K BM BN BK SK C0 i j =
        gemmScaledAcc d q ms M N K BM BN BK SK (i / BM) (j / BN) 0 (i % BM) (j % BN)) ∧
    (1 < SK → gemmFinalWrite SK am = FinalWrite.atomicAdd am ∧
      ∀ C0 : ℕ → ℕ → ℚ, gemmCAfter d q ms M N K BM BN BK SK C0 i j =
        C0 i j + ∑ pk ∈ Finset.range SK,
          gemmScaledAcc d q ms M N K BM BN BK SK (i / BM) (j / BN) pk (i % BM) (j % BN)) := by
  refine ⟨?_, ?_, ?_⟩
  · unfold gemmFinalWrite
    by_cases h : 1 < SK
    · simp [h]
    · simp [h]
  · intro h1
    subst h1
    exact ⟨by unfold gemmFinalWrite; simp,
      fun C0 => gemmCAfter_store d q ms M N K BM BN BK C0 i j hBM hBN hi hj⟩
  · intro h1
    exact ⟨by unfold gemmFinalWrite; simp [h1],
      fun C0 => gemmCAfter_atomic d q ms M N K BM BN BK SK C0 i j h1 hBM hBN hi hj⟩

/-- Witness for C8 at `SPLIT_K = 2`, `M = N = 1`, `K = 2`. -/
theorem C8_final_write_path_witness :
    (gemmFinalWrite 2 0 = FinalWrite.store ↔ ¬ 1 < 2) ∧
    ((2 : ℕ) = 1 → gemmFinalWrite 2 0 = FinalWrite.store ∧
      ∀ C0 : ℕ → ℕ → ℚ,
        gemmCAfter ⟨fun _ k => (k + 1 : ℚ), fun r c => r + 2 * c + 5, fun x => (x + 1 : ℚ),
            fun _ => (1 : ℚ), fun _ => (2 : ℚ), 1, 1⟩ ⟨2, 3, 1, 2⟩ ⟨3, 1, false⟩
            1 1 2 1 1 1 2 C0 0 0 =
          gemmScaledAcc ⟨fun _ k => (k + 1 : ℚ), fun r c => r + 2 * c + 5, fun x => (x + 1 : ℚ),
            fun _ => (1 : ℚ), fun _ => (2 : ℚ), 1, 1⟩ ⟨2, 3, 1, 2⟩ ⟨3, 1, false⟩
            1 1 2 1 1 1 2 (0 / 1) (0 / 1) 0 (0 % 1) (0 % 1)) ∧
    (1 < 2 → gemmFinalWrite 2 0 = FinalWrite.atomicAdd 0 ∧
      ∀ C0 : ℕ → ℕ → ℚ,
        gemmCAfter ⟨fun _ k => (k + 1 : ℚ), fun r c => r + 2 * c + 5, fun x => (x + 1 : ℚ),
            fun _ => (1 : ℚ), fun _ => (2 : ℚ), 1, 1⟩ ⟨2, 3, 1, 2⟩ ⟨3, 1, false⟩
            1 1 2 1 1 1 2 C0 0 0 =
          C0 0 0 + ∑ pk ∈ Finset.range 2,
            gemmScaledAcc ⟨fun _ k => (k + 1 : ℚ), fun r c => r + 2 * c + 5, fun x => (x + 1 : ℚ),
              fun _ => (1 : ℚ), fun _ => (2 : ℚ), 1, 1⟩ ⟨2, 3, 1, 2⟩ ⟨3, 1, false⟩
              1 1 2 1 1 1 2 (0 / 1) (0 / 1) pk (0 % 1) (0 % 1)) :=
  C8_final_write_path _ _ _ 1 1 2 1 1 1 2 0 0 0
    (by decide) (by decide) (by decide) (by decide)

/-- C9: the GEMV launch grid's second axis spans `cdiv(K, BLOCK_SIZE_K * 2)`
instances (exactly `K / (BLOCK_SIZE_K * 2)` under the divisibility
precondition); each instance reduces exactly the two consecutive
`BLOCK_SIZE_K` chunks starting at K-offset `program_id(1) * 2 * BLOCK_SIZE_K`,
with the group scale/zero metadata loaded once at group index `k_m` for that
offset and reused by both chunks; and each instance accumulates its
`1 × BLOCK_SIZE_N` scaled result into C by atomic add. -/
theorem C9_gemv_two_chunk (d : KernelData) (q : QuantGeom) (ms : ModeSel)
    (M N K BN BK i j : ℕ) (C0 : ℕ → ℕ → ℚ)
    (hBN : 0 < BN) (hBK : 0 < BK) (he : q.e ∣ BK) (hK : BK * 2 ∣ K)
    (hi : i < M) (hj : j < N) :
    (gemvGrid M N K 1 BN BK).2 = cdiv K (BK * 2) ∧
    cdiv K (BK * 2) = K / (BK * 2) ∧
    (∀ pm pn inst jLoc, gemvAcc d q ms BN BK pm pn inst jLoc =
      ∑ t ∈ Finset.range (BK * 2),
        d.A pm (gemvBase BK inst + t) *
          dequantizeValue ms.Wmode
            (unpackCode (d.Bq ((gemvBase BK inst + t) / q.e) (pn * BN + jLoc))
              ((gemvBase BK inst + t) % q.e * q.Wn) q.mask)
            (d.scalesF (metaIndex d (gemvKm q BK inst) (pn * BN + jLoc)))
            (if ms.zScalar then d.zerosF 0
             else d.zerosF (metaIndex d (gemvKm q BK inst) (pn * BN + jLoc)))) ∧
    gemvCAfter d q ms M N K BN BK C0 i j =
      C0 i j + ∑ inst ∈ Finset.range (cdiv K (BK * 2)),
        gemvScaledAcc d q ms M N BN BK i (j / BN) inst (j % BN) := by
  refine ⟨rfl, ?_, ?_, ?_⟩
  · obtain ⟨m, hm⟩ := hK
    have hpos : 0 < BK * 2 := by omega
    rw [hm, cdiv_of_dvd _ _ hpos, Nat.mul_div_cancel_left _ hpos]
  · intro pm pn inst jLoc
    exact gemvAcc_merge d q ms BN BK pm pn inst jLoc hBK he
  · exact gemvCAfter_collapse d q ms M N K BN BK C0 i j hBN hi hj

/-- Witness for C9 at `K = 64`, `BLOCK_SIZE_K = 16`, `BLOCK_SIZE_N = 1`,
4-bit packing (`elements_per_sample = 8`, `group_size = 32`). -/
theorem C9_gemv_two_chunk_witness :
    (gemvGrid 1 1 64 1 1 16).2 = cdiv 64 (16 * 2) ∧ cdiv 64 (16 * 2) = 64 / (16 * 2) := by
  have h := C9_gemv_two_chunk
    ⟨fun _ k => (k + 1 : ℚ), fun r c => r + 2 * c + 5, fun x => (x + 1 : ℚ),
      fun _ => (1 : ℚ), fun _ => (2 : ℚ), 1, 1⟩ ⟨4, 15, 8, 32⟩ ⟨3, 0, false⟩
    1 1 64 1 16 0 0 (fun _ _ => 0)
    (by decide) (by decide) (by decide) (by decide) (by decide) (by decide)
  exact ⟨h.1, h.2.1⟩

/-- C10: every configuration yielded by the GEMM pruner's enumeration path
carries the `init_to_zero("c_ptr")` pre-hook iff its `SPLIT_K` exceeds 1,
and when the power-of-two-rounded `M` is at most 16 every yielded
configuration has `SPLIT_K >= 2` and `BLOCK_SIZE_M == 16` — so every
small-batch launch takes the atomic-accumulate path with C zeroed by the
pre-hook. -/
theorem C10_small_batch_prehook (M n k g e : ℕ) (configs : List CandCfg) (c : CandCfg)
    (hc : c ∈ gemm_kernel_config_pruner M n k g e (fun _ => none) configs) :
    c.preHook = decide (1 < c.sk) ∧ (pow2ceil M ≤ 16 → 2 ≤ c.sk ∧ c.bm = 16) := by
  have hout : gemm_kernel_config_pruner M n k g e (fun _ => none) configs =
      gemmPruneEnum (pow2ceil M) k g e configs [] := rfl
  rw [hout] at hc
  obtain ⟨_, _, h3, h4, _⟩ := (gemmPruneEnum_sound (pow2ceil M) k g e configs []).1 c hc
  exact ⟨h3, h4⟩

/-- Witness for C10 at `M = 4` (rounds to 4 <= 16): the candidate with
`BLOCK_SIZE_M = 64, SPLIT_K = 1` is clamped to `BLOCK_SIZE_M = 16,
SPLIT_K = 2` and yielded with the pre-hook attached. -/
theorem C10_small_batch_prehook_witness :
    (⟨16, 32, 32, 8, 2, 0, 0, 0, 2, 4, true⟩ : CandCfg).preHook =
      decide (1 < (⟨16, 32, 32, 8, 2, 0, 0, 0, 2, 4, true⟩ : CandCfg).sk) ∧
    (pow2ceil 4 ≤ 16 → 2 ≤ (⟨16, 32, 32, 8, 2, 0, 0, 0, 2, 4, true⟩ : CandCfg).sk ∧
      (⟨16, 32, 32, 8, 2, 0, 0, 0, 2, 4, true⟩ : CandCfg).bm = 16) :=
  C10_small_batch_prehook 4 7 64 64 8 [⟨64, 32, 32, 8, 1, 0, 0, 0, 2, 4, false⟩] _
    (by decide)
